import Mathlib

/-!
Verification of the ki tree-explorer core: a shallow embedding of the node
model (src/tree/item.rs), the visibility flattener (src/tree/flatten.rs), the
navigation state machine (src/explorer/state.rs), the viewport windowing pass
(src/tree.rs, render_ref) and the directory-tree builder (src/explorer.rs),
together with theorems checking the specification's claims about them.

Modelling conventions:
- Rust usize / u16 values are modelled as Nat.  The only place the source
  relies on a machine-integer bound is select_prev, which starts from
  usize::MAX before clamping; that constant is modelled explicitly as
  USIZE_MAX.  All other arithmetic on these values in the source uses
  saturating operations, which match Nat subtraction and addition.
- ratatui Text is external to the core; the core observes only its height
  (TreeItem.height calls text.height()).  It is modelled as MText carrying
  that height.  Styling (Style, highlight symbols, Block) never feeds back
  into the core state and is omitted; a Tree is modelled by its items, and
  render_ref is modelled without a surrounding Block, so the inner area
  equals the full area.
- HashSet of paths is modelled as a Finset, Vec as List, io errors by the
  TreeError type.  Mutating methods on ExplorerState are modelled by
  state-passing functions returning (result, new state).
- File-system path components are modelled as List Char and full paths as
  lists of components (MPath); the builder receives the is-branch test as an
  explicit predicate, mirroring how the source delegates is_dir to the entry
  source.
- build_directory_tree recurses on the directory structure; the model uses a
  fuel parameter as the termination witness, returning the artificial error
  TreeError.outOfFuel when exhausted.  Any fuel larger than the longest entry
  path is sufficient.
-/

namespace Ki

/-- Models the ratatui Text value at its interface boundary: the core only
observes its height. -/
structure MText where
  height : Nat
deriving DecidableEq, Repr

/-- Model of TreeItem (src/tree/item.rs): identifier, display text, ordered
children. -/
structure TreeItem (α : Type) where
  identifier : α
  text : MText
  children : List (TreeItem α)

theorem TreeItem.sizeOf_children_lt {α : Type} (t : TreeItem α) :
    sizeOf t.children < sizeOf t := by
  cases t with
  | mk i tx c => simp only [TreeItem.mk.sizeOf_spec]; omega

/-- TreeItem.height in the source returns self.text.height(). -/
def TreeItem.height {α : Type} (t : TreeItem α) : Nat := t.text.height

/-- Error taxonomy of the source: duplicateIdentifier models the
io::ErrorKind::AlreadyExists errors of TreeItem::new / Tree::new / add_child,
invalidEntry the io::ErrorKind::InvalidData error of rebuild_tree.
outOfFuel is an artifact of the fuel-based model of build_directory_tree. -/
inductive TreeError where
  | duplicateIdentifier
  | invalidEntry
  | outOfFuel
deriving DecidableEq, Repr

/-- TreeItem::new_leaf: always succeeds, empty children. -/
def TreeItem.new_leaf {α : Type} (identifier : α) (text : MText) : TreeItem α :=
  ⟨identifier, text, []⟩

/-- TreeItem::new: fails iff the children contain duplicate identifiers
(the source compares the HashSet of identifiers against the children count,
which is exactly a Nodup test). -/
def TreeItem.new {α : Type} [DecidableEq α] (identifier : α) (text : MText)
    (children : List (TreeItem α)) : Except TreeError (TreeItem α) :=
  if (children.map TreeItem.identifier).Nodup then .ok ⟨identifier, text, children⟩
  else .error .duplicateIdentifier

/-- TreeItem::add_child takes the node by mutable reference; the model returns
the method result together with the node afterwards, so atomicity on failure
is visible. -/
def TreeItem.add_child {α : Type} [DecidableEq α] (node child : TreeItem α) :
    Except TreeError Unit × TreeItem α :=
  if child.identifier ∈ node.children.map TreeItem.identifier then
    (.error .duplicateIdentifier, node)
  else
    (.ok (), { node with children := node.children ++ [child] })

/-- Model of Tree (src/tree.rs) by its items; the styling configuration never
reaches the navigation state and is omitted. -/
structure Tree (α : Type) where
  items : List (TreeItem α)

/-- Tree::new: fails iff the top-level items contain duplicate identifiers. -/
def Tree.new {α : Type} [DecidableEq α] (items : List (TreeItem α)) :
    Except TreeError (Tree α) :=
  if (items.map TreeItem.identifier).Nodup then .ok ⟨items⟩
  else .error .duplicateIdentifier

/-- Model of Flattened (src/tree/flatten.rs). -/
structure Flattened (α : Type) where
  identifier : List α
  item : TreeItem α

/-- Flattened::depth: zero based depth, length of the path minus one. -/
def Flattened.depth {α : Type} (f : Flattened α) : Nat := f.identifier.length - 1

/-- Model of flatten (src/tree/flatten.rs): for each item in order, emit the
item under current ++ [identifier], followed (when that path is in
open_identifiers) by the flattening of its children, then the remaining
siblings. -/
def flatten {α : Type} [DecidableEq α] (open_identifiers : Finset (List α)) :
    List (TreeItem α) → List α → List (Flattened α)
  | [], _ => []
  | item :: rest, current =>
    let child_identifier := current ++ [item.identifier]
    ⟨child_identifier, item⟩ ::
      ((if child_identifier ∈ open_identifiers then
          flatten open_identifiers item.children child_identifier
        else []) ++
        flatten open_identifiers rest current)
termination_by items _ => sizeOf items
decreasing_by
  · have := TreeItem.sizeOf_children_lt item
    simp only [List.cons.sizeOf_spec]
    omega
  · simp only [List.cons.sizeOf_spec]
    omega

/-- Model of ratatui Rect (u16 fields modelled as Nat). -/
structure Rect where
  x : Nat
  y : Nat
  width : Nat
  height : Nat
deriving DecidableEq, Repr

/-- Model of ratatui Position. -/
structure Position where
  x : Nat
  y : Nat
deriving DecidableEq, Repr

/-- Rect::contains from ratatui: the position lies inside the rectangle. -/
def Rect.contains (r : Rect) (p : Position) : Bool :=
  decide (r.x ≤ p.x) && decide (p.x < r.x + r.width) &&
    decide (r.y ≤ p.y) && decide (p.y < r.y + r.height)

/-- Model of ExplorerState (src/explorer/state.rs).  The open field of the
source (explorer panel visibility) is named isOpen here because open is a
Lean keyword. -/
structure ExplorerState (α : Type) where
  selected : List α
  expanded : Finset (List α)
  isOpen : Bool
  offset : Nat
  last_area : Rect
  last_biggest_index : Nat
  last_identifiers : List (List α)
  last_rendered_identifiers : List (Nat × List α)
  ensure_selected_in_view_on_next_render : Bool

/-- ExplorerState::default(): everything empty / zero / false. -/
def ExplorerState.default (α : Type) : ExplorerState α :=
  ⟨[], ∅, false, 0, ⟨0, 0, 0, 0⟩, 0, [], [], false⟩

/-- usize::MAX, the clamp starting point of select_prev. -/
def USIZE_MAX : Nat := 2 ^ 64 - 1

/-- ExplorerState::flatten: flatten the whole forest under this state's
expanded set. -/
def ExplorerState.flatten {α : Type} [DecidableEq α] (s : ExplorerState α)
    (items : List (TreeItem α)) : List (Flattened α) :=
  Ki.flatten s.expanded items []

/-- ExplorerState::select. -/
def select {α : Type} [DecidableEq α] (s : ExplorerState α) (identifier : List α) :
    Bool × ExplorerState α :=
  let s1 := { s with ensure_selected_in_view_on_next_render := true }
  let changed := decide (s1.selected ≠ identifier)
  (changed, { s1 with selected := identifier })

/-- ExplorerState::expand: no-op on the empty path, otherwise HashSet insert
returning whether the path was newly inserted. -/
def expand {α : Type} [DecidableEq α] (s : ExplorerState α) (identifier : List α) :
    Bool × ExplorerState α :=
  if identifier.isEmpty then (false, s)
  else (decide (identifier ∉ s.expanded), { s with expanded := insert identifier s.expanded })

/-- ExplorerState::collapse: HashSet remove, returning whether it was present. -/
def collapse {α : Type} [DecidableEq α] (s : ExplorerState α) (identifier : List α) :
    Bool × ExplorerState α :=
  (decide (identifier ∈ s.expanded), { s with expanded := s.expanded.erase identifier })

/-- ExplorerState::toggle. -/
def toggle {α : Type} [DecidableEq α] (s : ExplorerState α) (identifier : List α) :
    Bool × ExplorerState α :=
  if identifier.isEmpty then (false, s)
  else if identifier ∈ s.expanded then collapse s identifier
  else expand s identifier

/-- ExplorerState::toggle_selected: the source first removes selected from
expanded and returns true when it was present; otherwise it expands it. -/
def toggle_selected {α : Type} [DecidableEq α] (s : ExplorerState α) :
    Bool × ExplorerState α :=
  if s.selected.isEmpty then (false, s)
  else
    let s1 := { s with ensure_selected_in_view_on_next_render := true }
    if s1.selected ∈ s1.expanded then
      (true, { s1 with expanded := s1.expanded.erase s1.selected })
    else expand s1 s1.selected

/-- ExplorerState::collapse_all. -/
def collapse_all {α : Type} [DecidableEq α] (s : ExplorerState α) :
    Bool × ExplorerState α :=
  if s.expanded = ∅ then (false, s)
  else (true, { s with expanded := ∅ })

/-- ExplorerState::select_first: select the first cached identifier, or the
empty path when the cache is empty. -/
def select_first {α : Type} [DecidableEq α] (s : ExplorerState α) :
    Bool × ExplorerState α :=
  select s (s.last_identifiers.headD [])

/-- ExplorerState::select_last. -/
def select_last {α : Type} [DecidableEq α] (s : ExplorerState α) :
    Bool × ExplorerState α :=
  select s (s.last_identifiers.getLastD [])

/-- ExplorerState::select_next: locate selected in the cached order, move one
forward (index 0 when not found), clamp to last_biggest_index and to the
cache bounds. -/
def select_next {α : Type} [DecidableEq α] (s : ExplorerState α) :
    Bool × ExplorerState α :=
  if s.last_identifiers.isEmpty then (false, s)
  else
    let current_pos := s.last_identifiers.findIdx? (fun id => id = s.selected)
    let new_pos :=
      min (min
        (match current_pos with
          | none => 0
          | some pos => pos + 1) s.last_biggest_index)
        (s.last_identifiers.length - 1)
    match s.last_identifiers.get? new_pos with
    | none => (false, s)
    | some new_identifier =>
      if s.selected = new_identifier then (false, s) else select s new_identifier

/-- ExplorerState::select_prev: like select_next but moving backward, with
usize::MAX as the pre-clamp position when selected is not found. -/
def select_prev {α : Type} [DecidableEq α] (s : ExplorerState α) :
    Bool × ExplorerState α :=
  if s.last_identifiers.isEmpty then (false, s)
  else
    let current_pos := s.last_identifiers.findIdx? (fun id => id = s.selected)
    let new_pos :=
      min (min
        (match current_pos with
          | none => USIZE_MAX
          | some pos => pos - 1) s.last_biggest_index)
        (s.last_identifiers.length - 1)
    match s.last_identifiers.get? new_pos with
    | none => (false, s)
    | some new_identifier =>
      if s.selected = new_identifier then (false, s) else select s new_identifier

/-- ExplorerState::rendered_at: outside the last area returns none, otherwise
the identifier of the greatest row not exceeding the queried row. -/
def rendered_at {α : Type} (s : ExplorerState α) (position : Position) :
    Option (List α) :=
  if !s.last_area.contains position then none
  else
    (s.last_rendered_identifiers.reverse.find? (fun yid => decide (yid.1 ≤ position.y))).map
      (fun yid => yid.2)

/-- ExplorerState::click_at. -/
def click_at {α : Type} [DecidableEq α] (s : ExplorerState α) (position : Position) :
    Bool × ExplorerState α :=
  match rendered_at s position with
  | some identifier =>
    if identifier = s.selected then toggle_selected s else select s identifier
  | none => (false, s)

/-- ExplorerState::scroll_selected_into_view. -/
def scroll_selected_into_view {α : Type} (s : ExplorerState α) : ExplorerState α :=
  { s with ensure_selected_in_view_on_next_render := true }

/-- ExplorerState::scroll_up: saturating subtraction on the offset, returning
whether it changed. -/
def scroll_up {α : Type} (s : ExplorerState α) (lines : Nat) : Bool × ExplorerState α :=
  let before := s.offset
  let s1 := { s with offset := s.offset - lines }
  (decide (before ≠ s1.offset), s1)

/-- ExplorerState::scroll_down: saturating addition clamped to
last_biggest_index, returning whether the offset changed. -/
def scroll_down {α : Type} (s : ExplorerState α) (lines : Nat) : Bool × ExplorerState α :=
  let before := s.offset
  let s1 := { s with offset := min (s.offset + lines) s.last_biggest_index }
  (decide (before ≠ s1.offset), s1)

/-- Marker drawn in front of a node by render_ref: no children, open (children
visible) or closed. -/
inductive NodeMarker where
  | noChildren
  | openNode
  | closedNode
deriving DecidableEq, Repr

/-- One row of the render plan emitted by render_ref: the screen row an item
starts at, its path, depth, rendered height, whether it is selected and which
marker it carries. -/
structure RenderRow (α : Type) where
  y : Nat
  identifier : List α
  depth : Nat
  height : Nat
  is_selected : Bool
  marker : NodeMarker

/-- First loop of render_ref: starting from the entry heights after start,
count how many consecutive entries fit into the available height; returns the
count and the accumulated height. -/
def growEnd (available_height : Nat) : List Nat → Nat → Nat × Nat
  | [], height => (0, height)
  | item_height :: rest, height =>
    if height + item_height > available_height then (0, height)
    else
      let (count, final) := growEnd available_height rest (height + item_height)
      (count + 1, final)

/-- Inner while loop of render_ref's scroll-into-view fixup: drop entries from
start while the accumulated height exceeds the available height.  The source
indexes visible[start] directly; the model reads the height list with default
0 and carries fuel (the source loop runs at most a bounded number of steps in
every reachable state). -/
def shrinkLoop (available_height : Nat) (hs : List Nat) :
    Nat → Nat → Nat → Nat × Nat
  | 0, start, height => (start, height)
  | fuel + 1, start, height =>
    if height > available_height then
      shrinkLoop available_height hs fuel (start + 1) (height - hs.getD start 0)
    else (start, height)

/-- Outer while loop of render_ref's scroll-into-view fixup: while the index
to keep visible is at or past the window end, extend the end by one entry and
shrink from the start until the total height fits again. -/
def growSel (available_height : Nat) (hs : List Nat) (idx : Nat) :
    Nat → Nat → Nat → Nat → Nat × Nat
  | 0, start, stop, _ => (start, stop)
  | fuel + 1, start, stop, height =>
    if idx ≥ stop then
      let h1 := height + hs.getD stop 0
      let (start1, h2) := shrinkLoop available_height hs (hs.length + 1) start h1
      growSel available_height hs idx fuel start1 (stop + 1) h2
    else (start, stop)

/-- The window computation of render_ref (src/tree.rs lines 154-198): clamp
the offset, clamp the start below the index to keep visible, grow the end
while entries fit, then run the scroll-into-view fixup.  Returns the window
as (start, end exclusive). -/
def computeWindow (available_height : Nat) (hs : List Nat) (offset biggest : Nat)
    (ensure_index_in_view : Option Nat) : Nat × Nat :=
  let start0 := min offset biggest
  let start1 :=
    match ensure_index_in_view with
    | some idx => min start0 idx
    | none => start0
  let grown := growEnd available_height (hs.drop start1) 0
  let stop0 := start1 + grown.1
  match ensure_index_in_view with
  | some idx => growSel available_height hs idx (idx + 1) start1 stop0 grown.2
  | none => (start1, stop0)

/-- The drawing loop of render_ref: emit one row per shown entry, rows placed
at consecutive heights starting at the area's top.  Takes the selection and
expansion set the loop reads (they are unchanged by the pass at this point). -/
def emitRows {α : Type} [DecidableEq α] (selected : List α)
    (expanded : Finset (List α)) (area : Rect) :
    List (Flattened α) → Nat → List (RenderRow α)
  | [], _ => []
  | f :: rest, current_height =>
    { y := area.y + current_height
      identifier := f.identifier
      depth := f.depth
      height := f.item.height
      is_selected := decide (selected = f.identifier)
      marker :=
        if f.item.children.isEmpty then NodeMarker.noChildren
        else if f.identifier ∈ expanded then NodeMarker.openNode
        else NodeMarker.closedNode } ::
      emitRows selected expanded area rest (current_height + f.item.height)

/-- Model of render_ref (src/tree.rs, StatefulWidgetRef for Tree), without a
surrounding Block so the inner area equals the full area, and with the buffer
writes abstracted into the returned render plan.  The source mutates the
state field by field as it goes; the model returns the accumulated state and
the emitted rows (the fields each branch reads are those the source would see
at that point, since they are not modified earlier in the pass). -/
def render_ref {α : Type} [DecidableEq α] (tree : Tree α) (area : Rect)
    (s : ExplorerState α) : ExplorerState α × List (RenderRow α) :=
  if area.width < 1 ∨ area.height < 1 then
    ({ s with last_area := area, last_rendered_identifiers := [] }, [])
  else
    let visible := flatten s.expanded tree.items []
    if visible.isEmpty then
      ({ s with
          last_area := area
          last_rendered_identifiers := []
          last_biggest_index := visible.length - 1 }, [])
    else
      let available_height := area.height
      let ensure_index_in_view :=
        if s.ensure_selected_in_view_on_next_render ∧ ¬s.selected.isEmpty then
          visible.findIdx? (fun f => f.identifier = s.selected)
        else none
      let window :=
        computeWindow available_height (visible.map (fun f => f.item.height))
          s.offset (visible.length - 1) ensure_index_in_view
      let shown := (visible.drop window.1).take (window.2 - window.1)
      let rows := emitRows s.selected s.expanded area shown 0
      ({ s with
          last_area := area
          last_biggest_index := visible.length - 1
          offset := window.1
          ensure_selected_in_view_on_next_render := false
          last_rendered_identifiers := rows.map (fun r => (r.y, r.identifier))
          last_identifiers := visible.map (fun f => f.identifier) }, rows)

/-- A file-system path component.  Rust compares paths componentwise; String
comparison does not reduce in the kernel, so components are modelled as
character lists, ordered lexicographically like OsStr components. -/
abbrev Name := List Char

/-- A full file-system path as its list of components; models PathBuf and
SortablePath at the interface the builder uses (ordering, strip_prefix, join,
parent, file_name). -/
abbrev MPath := List Name

/-- Path::strip_prefix: the remaining components when base is a prefix of the
path, none otherwise. -/
def relTo : MPath → MPath → Option MPath
  | [], p => some p
  | _ :: _, [] => none
  | a :: base, b :: p => if a = b then relTo base p else none

/-- Path::parent: none for the empty path, otherwise the path without its
last component. -/
def parentOf (p : MPath) : Option MPath :=
  if p.isEmpty then none else some p.dropLast

/-- The comparator of build_directory_tree's children.sort_by: items with
children sort before items without, ties broken by ascending identifier
(identifiers are full paths, so among siblings this is ascending by the own
component). -/
def childLe (a b : TreeItem MPath) : Bool :=
  match a.children.isEmpty, b.children.isEmpty with
  | false, true => true
  | true, false => false
  | _, _ => decide (a.identifier ≤ b.identifier)

/-- childLe as a decidable relation, for List.insertionSort. -/
def childLeP (a b : TreeItem MPath) : Prop := childLe a b = true

instance : DecidableRel childLeP := fun a b => by unfold childLeP; infer_instance

/-- The entry loop of build_directory_tree: for each entry that is exactly one
component below current_path, build a subtree (via recur) when the entry is a
directory, or a leaf otherwise; other entries are skipped.  Errors from recur
abort the build, as the question-mark operator does in the source. -/
def buildChildren (recur : MPath → Except TreeError (TreeItem MPath))
    (is_dir : MPath → Bool) (current_path : MPath) :
    List MPath → Except TreeError (List (TreeItem MPath))
  | [] => .ok []
  | path :: rest =>
    match relTo current_path path with
    | some [c] =>
      if is_dir path then
        match recur (current_path ++ [c]) with
        | .error e => .error e
        | .ok child =>
          match buildChildren recur is_dir current_path rest with
          | .error e => .error e
          | .ok tail => .ok (child :: tail)
      else
        match buildChildren recur is_dir current_path rest with
        | .error e => .error e
        | .ok tail => .ok (TreeItem.new_leaf (current_path ++ [c]) ⟨1⟩ :: tail)
    | _ => buildChildren recur is_dir current_path rest

/-- Model of build_directory_tree (src/explorer.rs lines 115-166): collect the
direct children among the entries, sort them directories-first then by
identifier (modelling Rust's stable sort_by with insertion sort), and build
the node with the duplicate-identifier check of TreeItem::new.  The display
name computation only affects the label text, which the model does not track.
Recursion is witnessed by fuel; fuel exhaustion returns the artificial
outOfFuel error. -/
def build_directory_tree (is_dir : MPath → Bool) (entries : List MPath) :
    Nat → MPath → Except TreeError (TreeItem MPath)
  | 0, _ => .error .outOfFuel
  | fuel + 1, current_path =>
    match buildChildren (fun q => build_directory_tree is_dir entries fuel q)
        is_dir current_path entries with
    | .error e => .error e
    | .ok children => TreeItem.new current_path ⟨1⟩ (children.insertionSort childLeP)

/-- The entry loop of rebuild_tree over the root's direct children: a
directory entry becomes a built subtree, a file entry becomes a leaf whose
label is its file name (an entry with no file name fails with InvalidData,
modelled as invalidEntry). -/
def rebuildChildren (is_dir : MPath → Bool) (entries : List MPath) (fuel : Nat) :
    List MPath → Except TreeError (List (TreeItem MPath))
  | [] => .ok []
  | path :: rest =>
    match (if is_dir path then build_directory_tree is_dir entries fuel path
        else
          match path.getLast? with
          | none => .error .invalidEntry
          | some _ => .ok (TreeItem.new_leaf path ⟨1⟩)) with
    | .error e => .error e
    | .ok item =>
      match rebuildChildren is_dir entries fuel rest with
      | .error e => .error e
      | .ok tail => .ok (item :: tail)

/-- Model of rebuild_tree (src/explorer.rs lines 60-86): iterate the entry set
in its order, keep the direct children of the root, build each, and assemble
the Tree with its duplicate check.  The BTreeSet iteration order of the
source is the order of the entries list. -/
def rebuild_tree (is_dir : MPath → Bool) (root_path : MPath) (entries : List MPath)
    (fuel : Nat) : Except TreeError (Tree MPath) :=
  match rebuildChildren is_dir entries fuel
      (entries.filter (fun p => parentOf p = some root_path)) with
  | .error e => .error e
  | .ok children => Tree.new children

/-- Every level of a built subtree is sorted by the builder's comparator and
its sublevels are too. -/
inductive EverySorted : TreeItem MPath → Prop where
  | mk : ∀ {t : TreeItem MPath}, List.Sorted childLeP t.children →
      (∀ c ∈ t.children, EverySorted c) → EverySorted t

/-- The ordering property claimed for a whole built forest: the top level is
sorted by the builder's comparator and every subtree level is as well. -/
def ForestEverySorted (tr : Tree MPath) : Prop :=
  List.Sorted childLeP tr.items ∧ ∀ t ∈ tr.items, EverySorted t

/-- C7: for every state with its offset inside the valid range and every line
count, scroll_up saturates at 0 (Nat subtraction), scroll_down saturates at
last_biggest_index, neither moves the offset outside
[0, last_biggest_index], and each returns true iff the offset actually
changed. -/
theorem scroll_bounds {α : Type} (s : ExplorerState α) (lines : Nat)
    (hoff : s.offset ≤ s.last_biggest_index) :
    ((scroll_up s lines).2.offset = s.offset - lines ∧
      (scroll_up s lines).2.offset ≤ s.last_biggest_index ∧
      ((scroll_up s lines).1 = true ↔ (scroll_up s lines).2.offset ≠ s.offset)) ∧
    ((scroll_down s lines).2.offset = min (s.offset + lines) s.last_biggest_index ∧
      (scroll_down s lines).2.offset ≤ s.last_biggest_index ∧
      ((scroll_down s lines).1 = true ↔ (scroll_down s lines).2.offset ≠ s.offset)) := by
  refine ⟨⟨rfl, ?_, ?_⟩, rfl, ?_, ?_⟩
  · simp only [scroll_up]
    omega
  · simp only [scroll_up, decide_eq_true_eq]
    exact ne_comm
  · exact min_le_right _ _
  · simp only [scroll_down, decide_eq_true_eq]
    exact ne_comm

/-- Concrete state for witnesses of the navigation-state claims. -/
def stateW : ExplorerState Nat :=
  { ExplorerState.default Nat with offset := 2, last_biggest_index := 5 }

/-- Witness for scroll_bounds at a concrete state: scrolling stays within the
bounds there. -/
theorem scroll_bounds_witness :
    (scroll_up stateW 3).2.offset ≤ stateW.last_biggest_index ∧
    (scroll_down stateW 7).2.offset ≤ stateW.last_biggest_index :=
  ⟨(scroll_bounds stateW 3 (by decide)).1.2.1,
    (scroll_bounds stateW 7 (by decide)).2.2.1⟩

/-- C8: add_child fails with the duplicate-identifier error iff the child's
identifier equals an existing child's identifier; on failure the node is
unchanged, on success the child is appended. -/
theorem add_child_spec {α : Type} [DecidableEq α] (node child : TreeItem α) :
    (child.identifier ∈ node.children.map TreeItem.identifier →
      node.add_child child = (.error .duplicateIdentifier, node)) ∧
    (child.identifier ∉ node.children.map TreeItem.identifier →
      node.add_child child =
        (.ok (), { node with children := node.children ++ [child] })) := by
  constructor <;> intro h <;> simp [TreeItem.add_child, h]

/-- Concrete node and children for the add_child witness. -/
def nodeW : TreeItem Nat := ⟨0, ⟨1⟩, [⟨1, ⟨1⟩, []⟩]⟩

def childDupW : TreeItem Nat := ⟨1, ⟨2⟩, []⟩

def childOkW : TreeItem Nat := ⟨2, ⟨1⟩, []⟩

/-- Witness for add_child_spec: a duplicate child is rejected leaving the node
unchanged, and a fresh child is appended. -/
theorem add_child_spec_witness :
    nodeW.add_child childDupW = (.error .duplicateIdentifier, nodeW) ∧
    nodeW.add_child childOkW =
      (.ok (), { nodeW with children := nodeW.children ++ [childOkW] }) :=
  ⟨(add_child_spec nodeW childDupW).1 (by decide),
    (add_child_spec nodeW childOkW).2 (by decide)⟩

/-- C9: a render pass never changes the selection, the expansion set or the
panel-open flag; only the scroll offset, the layout caches, the last area,
the biggest index and the pending scroll-into-view flag may change. -/
theorem render_preserves_navigation {α : Type} [DecidableEq α] (tree : Tree α)
    (area : Rect) (s : ExplorerState α) :
    (render_ref tree area s).1.selected = s.selected ∧
    (render_ref tree area s).1.expanded = s.expanded ∧
    (render_ref tree area s).1.isOpen = s.isOpen := by
  unfold render_ref
  split
  · exact ⟨rfl, rfl, rfl⟩
  · dsimp only
    split
    · exact ⟨rfl, rfl, rfl⟩
    · exact ⟨rfl, rfl, rfl⟩

/-- C3 (amended): a zero-width or zero-height viewport, or an empty flattened
list, produces an empty render plan, clears the per-row cache
last_rendered_identifiers, and leaves the scroll offset untouched; the
flattened-order cache last_identifiers is left at its stale previous value,
not cleared. -/
theorem render_empty_behavior {α : Type} [DecidableEq α] (tree : Tree α)
    (area : Rect) (s : ExplorerState α)
    (h : area.width = 0 ∨ area.height = 0 ∨ s.flatten tree.items = []) :
    (render_ref tree area s).2 = [] ∧
    (render_ref tree area s).1.last_rendered_identifiers = [] ∧
    (render_ref tree area s).1.offset = s.offset ∧
    (render_ref tree area s).1.last_identifiers = s.last_identifiers := by
  unfold render_ref
  split
  · exact ⟨rfl, rfl, rfl, rfl⟩
  · rename_i hdim
    have hflat : s.flatten tree.items = [] := by
      rcases h with h | h | h
      · exact absurd (Or.inl (by omega)) hdim
      · exact absurd (Or.inr (by omega)) hdim
      · exact h
    dsimp only
    split
    · exact ⟨rfl, rfl, rfl, rfl⟩
    · rename_i hne
      apply absurd _ hne
      show (s.flatten tree.items).isEmpty = true
      rw [hflat]
      rfl

/-- Concrete fixtures for the degenerate-render claims. -/
def treeC3 : Tree Nat := ⟨[⟨1, ⟨1⟩, []⟩]⟩

def areaC3 : Rect := ⟨0, 0, 0, 5⟩

def stateC3 : ExplorerState Nat :=
  { ExplorerState.default Nat with
    last_identifiers := [[5]]
    last_rendered_identifiers := [(0, [5])]
    offset := 3 }

/-- Witness for render_empty_behavior: at a zero-width area the plan is empty
and the offset untouched. -/
theorem render_empty_behavior_witness :
    (render_ref treeC3 areaC3 stateC3).2 = [] ∧
    (render_ref treeC3 areaC3 stateC3).1.offset = stateC3.offset :=
  ⟨(render_empty_behavior treeC3 areaC3 stateC3 (Or.inl rfl)).1,
    (render_empty_behavior treeC3 areaC3 stateC3 (Or.inl rfl)).2.2.1⟩

/-- Counterexample to C3 as stated: with a zero-width viewport the render pass
does not clear the flattened-order cache last_identifiers; it keeps its stale
value. -/
theorem render_empty_cex :
    areaC3.width = 0 ∧
    (render_ref treeC3 areaC3 stateC3).1.last_identifiers = [[5]] ∧
    ([[5]] : List (List Nat)) ≠ [] := by
  refine ⟨rfl, ?_, by decide⟩
  rfl

/-- Characterization of findIdx?: it returns some i exactly when the element
at i matches and every element before does not. -/
theorem findIdx?_spec {α : Type} (p : α → Bool) :
    ∀ (l : List α) (i : Nat), l.findIdx? p = some i ↔
      (∃ x, l.get? i = some x ∧ p x = true) ∧
      ∀ j, j < i → ∃ x, l.get? j = some x ∧ p x = false := by
  intro l
  induction l with
  | nil =>
    intro i
    constructor
    · intro h
      simp [List.findIdx?] at h
    · rintro ⟨⟨x, hx, _⟩, _⟩
      simp at hx
  | cons a t ih =>
    intro i
    rw [List.findIdx?_cons]
    by_cases hpa : p a = true
    · rw [if_pos hpa]
      constructor
      · intro h
        have h0 : i = 0 := (Option.some.injEq _ _ ▸ h).symm ▸ rfl
        subst h0
        exact ⟨⟨a, rfl, hpa⟩, fun j hj => absurd hj (Nat.not_lt_zero j)⟩
      · rintro ⟨⟨x, hx, hpx⟩, hbefore⟩
        cases i with
        | zero => rfl
        | succ k =>
          obtain ⟨y, hy, hpy⟩ := hbefore 0 (Nat.succ_pos k)
          rw [List.get?_cons_zero] at hy
          cases hy
          rw [hpa] at hpy
          cases hpy
    · rw [if_neg hpa]
      have hpa' : p a = false := by
        revert hpa
        cases p a <;> simp
      rw [show (0 + 1 : Nat) = 1 from rfl, List.findIdx?_succ]
      constructor
      · intro h
        obtain ⟨k, hk, rfl⟩ := Option.map_eq_some'.mp h
        obtain ⟨⟨x, hx, hpx⟩, hbefore⟩ := (ih k).mp hk
        refine ⟨⟨x, by simpa using hx, hpx⟩, ?_⟩
        intro j hj
        cases j with
        | zero => exact ⟨a, rfl, hpa'⟩
        | succ m =>
          obtain ⟨y, hy, hpy⟩ := hbefore m (by omega)
          exact ⟨y, by simpa using hy, hpy⟩
      · rintro ⟨⟨x, hx, hpx⟩, hbefore⟩
        cases i with
        | zero =>
          rw [List.get?_cons_zero] at hx
          cases hx
          rw [hpa'] at hpx
          cases hpx
        | succ k =>
          have : t.findIdx? p = some k := by
            refine (ih k).mpr ⟨⟨x, by simpa using hx, hpx⟩, ?_⟩
            intro j hj
            obtain ⟨y, hy, hpy⟩ := hbefore (j + 1) (by omega)
            exact ⟨y, by simpa using hy, hpy⟩
          rw [this]
          rfl

/-- C5: when the cached flattened order is non-empty and the current selection
does not occur in it, select_next selects the entry at index 0 and
select_prev selects the entry at the clamped last index, the clamp target
being usize::MAX before clamping to last_biggest_index and to the cache's
bounds. -/
theorem select_jump {α : Type} [DecidableEq α] (s : ExplorerState α)
    (hne : s.last_identifiers ≠ [])
    (hnf : s.selected ∉ s.last_identifiers)
    (hlen : s.last_identifiers.length - 1 ≤ USIZE_MAX) :
    (select_next s).1 = true ∧
    s.last_identifiers.get? 0 = some (select_next s).2.selected ∧
    (select_prev s).1 = true ∧
    s.last_identifiers.get?
        (min s.last_biggest_index (s.last_identifiers.length - 1)) =
      some (select_prev s).2.selected := by
  have hfind : s.last_identifiers.findIdx? (fun id => decide (id = s.selected)) = none :=
    List.findIdx?_eq_none_iff.mpr (by
      intro x hx
      simp only [decide_eq_false_iff_not]
      intro hx'
      exact hnf (hx' ▸ hx))
  have hneb : s.last_identifiers.isEmpty = false := by
    cases hl : s.last_identifiers with
    | nil => exact absurd hl hne
    | cons a t => rfl
  obtain ⟨hd, tl, hl⟩ := List.exists_cons_of_ne_nil hne
  have hhd : s.last_identifiers.get? 0 = some hd := by rw [hl]; rfl
  have hhdmem : hd ∈ s.last_identifiers := by rw [hl]; exact List.mem_cons_self hd tl
  have hhdne : s.selected ≠ hd := fun he => hnf (he ▸ hhdmem)
  have hminnext : min (min 0 s.last_biggest_index) (s.last_identifiers.length - 1) = 0 := by
    simp only [Nat.min_def]
    split_ifs <;> omega
  have hminprev : min (min USIZE_MAX s.last_biggest_index) (s.last_identifiers.length - 1) =
      min s.last_biggest_index (s.last_identifiers.length - 1) := by
    simp only [Nat.min_def]
    split_ifs <;> omega
  have hidxlt : min s.last_biggest_index (s.last_identifiers.length - 1) <
      s.last_identifiers.length := by
    have h1 : 0 < s.last_identifiers.length := by rw [hl]; exact Nat.succ_pos _
    simp only [Nat.min_def]
    split_ifs <;> omega
  obtain ⟨lst, hlst⟩ : ∃ x, s.last_identifiers.get?
      (min s.last_biggest_index (s.last_identifiers.length - 1)) = some x := by
    rw [List.get?_eq_get hidxlt]
    exact ⟨_, rfl⟩
  have hlstmem : lst ∈ s.last_identifiers := List.get?_mem hlst
  have hlstne : s.selected ≠ lst := fun he => hnf (he ▸ hlstmem)
  refine ⟨?_, ?_, ?_, ?_⟩
  · simp only [select_next, hneb, Bool.false_eq_true, if_false, hfind]
    rw [hminnext, hhd]
    dsimp only
    rw [if_neg hhdne]
    simp only [select]
    exact decide_eq_true hhdne
  · simp only [select_next, hneb, Bool.false_eq_true, if_false, hfind]
    rw [hminnext, hhd]
    dsimp only
    rw [if_neg hhdne]
    rfl
  · simp only [select_prev, hneb, Bool.false_eq_true, if_false, hfind]
    rw [hminprev, hlst]
    dsimp only
    rw [if_neg hlstne]
    simp only [select]
    exact decide_eq_true hlstne
  · simp only [select_prev, hneb, Bool.false_eq_true, if_false, hfind]
    rw [hminprev, hlst]
    dsimp only
    rw [if_neg hlstne]
    rfl

/-- Concrete state for the select_jump witness: three cached entries, the
selection absent from them. -/
def stateJ : ExplorerState Nat :=
  { ExplorerState.default Nat with
    selected := [9]
    last_identifiers := [[1], [2], [3]]
    last_biggest_index := 7 }

/-- Witness for select_jump: with the selection absent, select_next lands on
the first cached entry and select_prev on the clamped last one. -/
theorem select_jump_witness :
    stateJ.last_identifiers.get? 0 = some (select_next stateJ).2.selected ∧
    stateJ.last_identifiers.get?
        (min stateJ.last_biggest_index (stateJ.last_identifiers.length - 1)) =
      some (select_prev stateJ).2.selected :=
  ⟨(select_jump stateJ (by decide) (by decide) (by decide)).2.1,
    (select_jump stateJ (by decide) (by decide) (by decide)).2.2.2⟩

/-- The C10 invariant: every path in the expansion set is non-empty. -/
def ExpandedNonempty {α : Type} (s : ExplorerState α) : Prop :=
  ∀ p ∈ s.expanded, p ≠ []

theorem expand_expanded_nonempty {α : Type} [DecidableEq α] (s : ExplorerState α)
    (h : ExpandedNonempty s) (identifier : List α) :
    ExpandedNonempty (expand s identifier).2 := by
  unfold expand
  split
  · exact h
  · rename_i hne
    intro p hp
    rcases Finset.mem_insert.mp hp with rfl | hp
    · simpa [List.isEmpty_iff] using hne
    · exact h p hp

theorem collapse_expanded_nonempty {α : Type} [DecidableEq α] (s : ExplorerState α)
    (h : ExpandedNonempty s) (identifier : List α) :
    ExpandedNonempty (collapse s identifier).2 := by
  intro p hp
  exact h p (Finset.mem_of_mem_erase hp)

theorem toggle_expanded_nonempty {α : Type} [DecidableEq α] (s : ExplorerState α)
    (h : ExpandedNonempty s) (identifier : List α) :
    ExpandedNonempty (toggle s identifier).2 := by
  unfold toggle
  split
  · exact h
  · split
    · exact collapse_expanded_nonempty s h identifier
    · exact expand_expanded_nonempty s h identifier

theorem toggle_selected_expanded_nonempty {α : Type} [DecidableEq α]
    (s : ExplorerState α) (h : ExpandedNonempty s) :
    ExpandedNonempty (toggle_selected s).2 := by
  unfold toggle_selected
  split
  · exact h
  · rename_i hne
    dsimp only
    split
    · intro p hp
      exact h p (Finset.mem_of_mem_erase hp)
    · unfold expand
      split
      · exact h
      · intro p hp
        rcases Finset.mem_insert.mp hp with rfl | hp
        · simpa [List.isEmpty_iff] using hne
        · exact h p hp

theorem select_next_expanded_eq {α : Type} [DecidableEq α] (s : ExplorerState α) :
    (select_next s).2.expanded = s.expanded := by
  unfold select_next
  split
  · rfl
  · dsimp only
    split
    · rfl
    · split
      · rfl
      · rfl

theorem select_prev_expanded_eq {α : Type} [DecidableEq α] (s : ExplorerState α) :
    (select_prev s).2.expanded = s.expanded := by
  unfold select_prev
  split
  · rfl
  · dsimp only
    split
    · rfl
    · split
      · rfl
      · rfl

theorem click_at_expanded_nonempty {α : Type} [DecidableEq α] (s : ExplorerState α)
    (h : ExpandedNonempty s) (pos : Position) :
    ExpandedNonempty (click_at s pos).2 := by
  unfold click_at
  split
  · split
    · exact toggle_selected_expanded_nonempty s h
    · exact h
  · exact h

/-- C10: the expansion set never contains the empty path: the default state
satisfies the invariant and every navigation operation preserves it, because
expand and toggle reject an empty path and toggle_selected requires a
non-empty selection. -/
theorem expanded_nonempty_invariant {α : Type} [DecidableEq α] (s : ExplorerState α)
    (h : ExpandedNonempty s) :
    ExpandedNonempty (ExplorerState.default α) ∧
    (∀ identifier, ExpandedNonempty (select s identifier).2) ∧
    (∀ identifier, ExpandedNonempty (expand s identifier).2) ∧
    (∀ identifier, ExpandedNonempty (collapse s identifier).2) ∧
    (∀ identifier, ExpandedNonempty (toggle s identifier).2) ∧
    ExpandedNonempty (toggle_selected s).2 ∧
    ExpandedNonempty (collapse_all s).2 ∧
    ExpandedNonempty (select_first s).2 ∧
    ExpandedNonempty (select_last s).2 ∧
    ExpandedNonempty (select_next s).2 ∧
    ExpandedNonempty (select_prev s).2 ∧
    (∀ pos, ExpandedNonempty (click_at s pos).2) ∧
    (∀ n, ExpandedNonempty (scroll_up s n).2) ∧
    (∀ n, ExpandedNonempty (scroll_down s n).2) := by
  refine ⟨?_, fun _ => h, fun i => expand_expanded_nonempty s h i,
    fun i => collapse_expanded_nonempty s h i,
    fun i => toggle_expanded_nonempty s h i,
    toggle_selected_expanded_nonempty s h, ?_, fun p hp => h p hp,
    fun p hp => h p hp, ?_, ?_, fun pos => click_at_expanded_nonempty s h pos,
    fun _ => h, fun _ => h⟩
  · intro p hp
    exact absurd hp (Finset.not_mem_empty p)
  · unfold collapse_all
    split
    · exact h
    · intro p hp
      exact absurd hp (Finset.not_mem_empty p)
  · rw [ExpandedNonempty, select_next_expanded_eq]
    exact h
  · rw [ExpandedNonempty, select_prev_expanded_eq]
    exact h

/-- Witness for the expansion invariant at a concrete state: after expanding a
concrete non-empty path the invariant still holds. -/
theorem expanded_nonempty_invariant_witness :
    ExpandedNonempty (expand stateW [3]).2 :=
  (expanded_nonempty_invariant stateW
    (fun p hp => absurd hp (Finset.not_mem_empty p))).2.2.1 [3]

/-- C6 (amended): when the cached flattened order has no duplicate paths, a
select_next followed by select_prev with no render pass in between restores
the original selection, provided the starting index is not at the clamped end
(so select_next really moves forward; being away from the end also keeps
select_prev off index 0). -/
theorem select_next_prev_roundtrip {α : Type} [DecidableEq α] (s : ExplorerState α)
    (i : Nat)
    (hnd : s.last_identifiers.Nodup)
    (hidx : s.last_identifiers.findIdx? (fun id => decide (id = s.selected)) = some i)
    (hb : i + 1 ≤ s.last_biggest_index)
    (hl : i + 1 ≤ s.last_identifiers.length - 1) :
    ((select_prev (select_next s).2).2).selected = s.selected := by
  obtain ⟨⟨x, hx, hpx⟩, hbef⟩ := (findIdx?_spec _ s.last_identifiers i).mp hidx
  rw [decide_eq_true_eq] at hpx
  subst hpx
  have hilen : i < s.last_identifiers.length := by
    by_contra hcon
    rw [List.get?_eq_none.mpr (by omega)] at hx
    cases hx
  have hlen : i + 2 ≤ s.last_identifiers.length := by omega
  have hi1 : i + 1 < s.last_identifiers.length := by omega
  obtain ⟨y, hy⟩ : ∃ y, s.last_identifiers.get? (i + 1) = some y := by
    rw [List.get?_eq_get hi1]
    exact ⟨_, rfl⟩
  have hisel : s.last_identifiers.get ⟨i, hilen⟩ = s.selected := by
    rw [List.get?_eq_get hilen] at hx
    exact Option.some.inj hx
  have hiy : s.last_identifiers.get ⟨i + 1, hi1⟩ = y := by
    rw [List.get?_eq_get hi1] at hy
    exact Option.some.inj hy
  have hyne : s.selected ≠ y := by
    intro he
    have hgg : s.last_identifiers.get ⟨i, hilen⟩ = s.last_identifiers.get ⟨i + 1, hi1⟩ := by
      rw [hisel, hiy, he]
    have h2 := (hnd.get_inj_iff).mp hgg
    have h3 : i = i + 1 := congrArg Fin.val h2
    omega
  have hneb : s.last_identifiers.isEmpty = false := by
    cases hL : s.last_identifiers with
    | nil =>
      rw [hL] at hi1
      simp at hi1
    | cons a t => rfl
  have hminnext : min (min (i + 1) s.last_biggest_index)
      (s.last_identifiers.length - 1) = i + 1 := by
    simp only [Nat.min_def]
    split_ifs <;> omega
  have hnext : (select_next s).2 =
      { s with selected := y, ensure_selected_in_view_on_next_render := true } := by
    simp only [select_next, hneb, Bool.false_eq_true, if_false, hidx]
    rw [hminnext, hy]
    dsimp only
    rw [if_neg hyne]
    rfl
  have hfind2 : s.last_identifiers.findIdx? (fun id => decide (id = y)) = some (i + 1) := by
    refine (findIdx?_spec _ _ _).mpr ⟨⟨y, hy, by simp⟩, ?_⟩
    intro j hj
    have hjlt : j < s.last_identifiers.length := by omega
    refine ⟨s.last_identifiers.get ⟨j, hjlt⟩, List.get?_eq_get hjlt, ?_⟩
    rw [decide_eq_false_iff_not]
    intro he
    have hgg : s.last_identifiers.get ⟨j, hjlt⟩ = s.last_identifiers.get ⟨i + 1, hi1⟩ := by
      rw [hiy, he]
    have h2 := (hnd.get_inj_iff).mp hgg
    have h3 : j = i + 1 := congrArg Fin.val h2
    omega
  have hminprev2 : min (min (i + 1 - 1) s.last_biggest_index)
      (s.last_identifiers.length - 1) = i := by
    simp only [Nat.min_def]
    split_ifs <;> omega
  rw [hnext]
  simp only [select_prev, hneb, Bool.false_eq_true, if_false, hfind2]
  dsimp only
  rw [hminprev2, hx]
  dsimp only
  rw [if_neg (Ne.symm hyne)]
  rfl

/-- Cached order with a duplicate path, for the round-trip counterexample. -/
def stateR : ExplorerState Nat :=
  { ExplorerState.default Nat with
    selected := [1]
    last_identifiers := [[2], [1], [2], [3]]
    last_biggest_index := 9 }

/-- Counterexample to C6 as stated: in a cached order containing a duplicate
path, with the selection found at index 1 and no clamp boundary hit,
select_next then select_prev does not restore the original selection (the
backward search finds the earlier duplicate). -/
theorem select_roundtrip_cex :
    stateR.last_identifiers.findIdx? (fun id => decide (id = stateR.selected)) = some 1 ∧
    1 + 1 ≤ stateR.last_biggest_index ∧
    1 + 1 ≤ stateR.last_identifiers.length - 1 ∧
    ((select_prev (select_next stateR).2).2).selected ≠ stateR.selected := by
  decide

/-- Duplicate-free cached order for the round-trip witness. -/
def stateRT : ExplorerState Nat :=
  { ExplorerState.default Nat with
    selected := [1]
    last_identifiers := [[1], [2], [3]]
    last_biggest_index := 2 }

/-- Witness for the amended round trip at a concrete duplicate-free state. -/
theorem select_next_prev_roundtrip_witness :
    ((select_prev (select_next stateRT).2).2).selected = stateRT.selected :=
  select_next_prev_roundtrip stateRT 0 (by decide) (by decide) (by decide) (by decide)

/-- Total rendered height of the entries with indices in [a, b). -/
def sumRange (hs : List Nat) (a b : Nat) : Nat := ((hs.drop a).take (b - a)).sum

theorem sumRange_empty (hs : List Nat) (a b : Nat) (h : b ≤ a) : sumRange hs a b = 0 := by
  unfold sumRange
  rw [Nat.sub_eq_zero_of_le h]
  rfl

theorem sumRange_succ_right (hs : List Nat) (a b : Nat) (hab : a ≤ b)
    (hb : b < hs.length) :
    sumRange hs a (b + 1) = sumRange hs a b + hs.getD b 0 := by
  unfold sumRange
  have h1 : b + 1 - a = (b - a) + 1 := by omega
  rw [h1, List.take_succ, List.sum_append]
  congr 1
  have h2 : (hs.drop a)[b - a]? = some hs[b] := by
    rw [List.getElem?_drop]
    have h3 : a + (b - a) = b := by omega
    rw [h3, List.getElem?_eq_getElem hb]
  rw [h2]
  have h4 : hs.getD b 0 = hs[b] := by
    rw [List.getD_eq_getElem?_getD, List.getElem?_eq_getElem hb]
    rfl
  rw [h4]
  rfl

theorem sumRange_succ_left (hs : List Nat) (a b : Nat) (hab : a < b)
    (hb : b ≤ hs.length) :
    sumRange hs a b = hs.getD a 0 + sumRange hs (a + 1) b := by
  have ha : a < hs.length := by omega
  unfold sumRange
  rw [List.drop_eq_getElem_cons ha]
  have h1 : b - a = (b - (a + 1)) + 1 := by omega
  rw [h1, List.take_succ_cons, List.sum_cons]
  have h4 : hs.getD a 0 = hs[a] := by
    rw [List.getD_eq_getElem?_getD, List.getElem?_eq_getElem ha]
    rfl
  rw [h4]

theorem sumRange_single (hs : List Nat) (a : Nat) (ha : a < hs.length) :
    sumRange hs a (a + 1) = hs.getD a 0 := by
  rw [sumRange_succ_right hs a a (le_refl a) ha, sumRange_empty hs a a (le_refl a)]
  omega

theorem growEnd_spec (avail : Nat) : ∀ (hs : List Nat) (acc : Nat),
    (growEnd avail hs acc).1 ≤ hs.length ∧
    (growEnd avail hs acc).2 = acc + (hs.take (growEnd avail hs acc).1).sum := by
  intro hs
  induction hs with
  | nil =>
    intro acc
    simp [growEnd]
  | cons h t ih =>
    intro acc
    simp only [growEnd]
    by_cases hgt : acc + h > avail
    · rw [if_pos hgt]
      simp
    · rw [if_neg hgt]
      obtain ⟨h1, h2⟩ := ih (acc + h)
      show (growEnd avail t (acc + h)).1 + 1 ≤ (h :: t).length ∧
        (growEnd avail t (acc + h)).2 =
          acc + ((h :: t).take ((growEnd avail t (acc + h)).1 + 1)).sum
      constructor
      · simp only [List.length_cons]
        omega
      · rw [List.take_succ_cons, List.sum_cons]
        omega

theorem shrinkLoop_spec (avail : Nat) (hs : List Nat) (e : Nat) :
    ∀ fuel start height, height = sumRange hs start e → start ≤ e →
    e ≤ hs.length → e - start < fuel →
    start ≤ (shrinkLoop avail hs fuel start height).1 ∧
    (shrinkLoop avail hs fuel start height).1 ≤ e ∧
    (shrinkLoop avail hs fuel start height).2 =
      sumRange hs (shrinkLoop avail hs fuel start height).1 e ∧
    (shrinkLoop avail hs fuel start height).2 ≤ avail ∧
    ∀ j, start ≤ j → j < (shrinkLoop avail hs fuel start height).1 →
      avail < sumRange hs j e := by
  intro fuel
  induction fuel with
  | zero =>
    intro start height _ _ _ hf
    omega
  | succ n ih =>
    intro start height hsum hse hel hf
    simp only [shrinkLoop]
    by_cases hgt : height > avail
    · rw [if_pos hgt]
      have hlt : start < e := by
        by_contra hcon
        push_neg at hcon
        rw [sumRange_empty hs start e hcon] at hsum
        omega
      have hnew : height - hs.getD start 0 = sumRange hs (start + 1) e := by
        rw [hsum, sumRange_succ_left hs start e hlt hel]
        omega
      obtain ⟨k1, k2, k3, k4, k5⟩ :=
        ih (start + 1) (height - hs.getD start 0) hnew (by omega) hel (by omega)
      refine ⟨by omega, k2, k3, k4, ?_⟩
      intro j hj1 hj2
      rcases Nat.eq_or_lt_of_le hj1 with rfl | hlt2
      · rw [← hsum]
        exact hgt
      · exact k5 j (by omega) hj2
    · rw [if_neg hgt]
      refine ⟨le_refl _, hse, hsum, by omega, ?_⟩
      intro j h1 h2
      omega

theorem growSel_spec (avail : Nat) (hs : List Nat) (i : Nat)
    (hi : i < hs.length) (hfit : hs.getD i 0 ≤ avail) :
    ∀ fuel start stop height, height = sumRange hs start stop → start ≤ stop →
    stop ≤ hs.length → start ≤ i → i + 1 ≤ stop + fuel →
    (growSel avail hs i fuel start stop height).1 ≤ i ∧
    i < (growSel avail hs i fuel start stop height).2 ∧
    (growSel avail hs i fuel start stop height).2 ≤ hs.length ∧
    (growSel avail hs i fuel start stop height).1 ≤
      (growSel avail hs i fuel start stop height).2 := by
  intro fuel
  induction fuel with
  | zero =>
    intro start stop height hsum hss hsl hsi hfuel
    simp only [growSel]
    exact ⟨hsi, by omega, hsl, hss⟩
  | succ n ih =>
    intro start stop height hsum hss hsl hsi hfuel
    simp only [growSel]
    by_cases hge : i ≥ stop
    · rw [if_pos hge]
      have hstoplt : stop < hs.length := by omega
      have hsum1 : height + hs.getD stop 0 = sumRange hs start (stop + 1) := by
        rw [hsum, sumRange_succ_right hs start stop hss hstoplt]
      obtain ⟨m1, m2, m3, m4, m5⟩ :=
        shrinkLoop_spec avail hs (stop + 1) (hs.length + 1) start
          (height + hs.getD stop 0) hsum1 (by omega) (by omega) (by omega)
      set r := shrinkLoop avail hs (hs.length + 1) start (height + hs.getD stop 0)
        with hr
      have hsi' : r.1 ≤ i := by
        rcases Nat.lt_or_ge stop i with hlt | hge2
        · omega
        · have hstopi : stop = i := by omega
          by_contra hcon
          push_neg at hcon
          have h5 := m5 i (by omega) (by omega)
          rw [hstopi, sumRange_single hs i hi] at h5
          omega
      exact ih r.1 (stop + 1) r.2 m3 m2 (by omega) hsi' (by omega)
    · rw [if_neg hge]
      exact ⟨hsi, by omega, hsl, hss⟩

/-- The scroll-into-view guarantee at the level of the window computation:
when the index to keep visible is inside the list and its entry's height fits
into the available height, the computed window [start, end) contains it. -/
theorem computeWindow_contains (avail : Nat) (hs : List Nat) (offset biggest i : Nat)
    (hi : i < hs.length) (hfit : hs.getD i 0 ≤ avail) :
    (computeWindow avail hs offset biggest (some i)).1 ≤ i ∧
    i < (computeWindow avail hs offset biggest (some i)).2 ∧
    (computeWindow avail hs offset biggest (some i)).2 ≤ hs.length ∧
    (computeWindow avail hs offset biggest (some i)).1 ≤
      (computeWindow avail hs offset biggest (some i)).2 := by
  unfold computeWindow
  dsimp only
  have hs1i : min (min offset biggest) i ≤ i := min_le_right _ _
  have hs1len : min (min offset biggest) i ≤ hs.length := by omega
  obtain ⟨hcnt, hsum⟩ := growEnd_spec avail (hs.drop (min (min offset biggest) i)) 0
  rw [List.length_drop] at hcnt
  have hsum' : (growEnd avail (hs.drop (min (min offset biggest) i)) 0).2 =
      sumRange hs (min (min offset biggest) i)
        (min (min offset biggest) i +
          (growEnd avail (hs.drop (min (min offset biggest) i)) 0).1) := by
    unfold sumRange
    have hmc : min (min offset biggest) i +
        (growEnd avail (hs.drop (min (min offset biggest) i)) 0).1 -
        min (min offset biggest) i =
        (growEnd avail (hs.drop (min (min offset biggest) i)) 0).1 := by omega
    rw [hmc, hsum]
    omega
  exact growSel_spec avail hs i hi hfit (i + 1) (min (min offset biggest) i)
    (min (min offset biggest) i +
      (growEnd avail (hs.drop (min (min offset biggest) i)) 0).1)
    (growEnd avail (hs.drop (min (min offset biggest) i)) 0).2
    hsum' (by omega) (by omega) hs1i (by omega)

theorem emitRows_length {α : Type} [DecidableEq α] (selected : List α)
    (expanded : Finset (List α)) (area : Rect) :
    ∀ (l : List (Flattened α)) (acc : Nat),
      (emitRows selected expanded area l acc).length = l.length := by
  intro l
  induction l with
  | nil =>
    intro acc
    rfl
  | cons f rest ih =>
    intro acc
    simp only [emitRows, List.length_cons, ih]

theorem window_contains_of_bounds (a b n i : Nat) (h1 : a ≤ i) (h2 : i < b)
    (h3 : b ≤ n) (h4 : a ≤ b) : a ≤ i ∧ i < a + min (b - a) (n - a) := by
  have hm : min (b - a) (n - a) = b - a := min_eq_left (by omega)
  rw [hm]
  omega

/-- C1 (amended): when pending_scroll_into_view is set, the selection is
non-empty and resolves to index i of the flattened visible list, the viewport
is at least 1x1, and the selected entry's own rendered height fits into the
viewport height, then the window [start, end) computed by the render pass
contains i: the persisted offset is at most i and i is below offset plus the
number of emitted rows. -/
theorem selected_in_window {α : Type} [DecidableEq α] (tree : Tree α) (area : Rect)
    (s : ExplorerState α) (i : Nat) (f : Flattened α)
    (hw : 1 ≤ area.width) (hh : 1 ≤ area.height)
    (hpend : s.ensure_selected_in_view_on_next_render = true)
    (hsel : s.selected ≠ [])
    (hfind : (flatten s.expanded tree.items []).findIdx?
      (fun g => decide (g.identifier = s.selected)) = some i)
    (hget : (flatten s.expanded tree.items []).get? i = some f)
    (hfit : f.item.height ≤ area.height) :
    (render_ref tree area s).1.offset ≤ i ∧
    i < (render_ref tree area s).1.offset + (render_ref tree area s).2.length := by
  have hilt : i < (flatten s.expanded tree.items []).length := by
    rcases List.get?_eq_some.mp hget with ⟨h, _⟩
    exact h
  have hnil : (flatten s.expanded tree.items []).isEmpty = false := by
    cases hL : flatten s.expanded tree.items [] with
    | nil =>
      rw [hL] at hilt
      simp at hilt
    | cons a t => rfl
  have hdim : ¬(area.width < 1 ∨ area.height < 1) := by omega
  have hselB : s.selected.isEmpty = false := by
    cases hS : s.selected with
    | nil => exact absurd hS hsel
    | cons a t => rfl
  have hlenmap : ((flatten s.expanded tree.items []).map
      (fun g => g.item.height)).length = (flatten s.expanded tree.items []).length :=
    List.length_map _ _
  have hgetD : ((flatten s.expanded tree.items []).map
      (fun g => g.item.height)).getD i 0 = f.item.height := by
    rw [List.getD_eq_get?, List.get?_map, hget]
    rfl
  obtain ⟨w1, w2, w3, w4⟩ := computeWindow_contains area.height
    ((flatten s.expanded tree.items []).map (fun g => g.item.height))
    s.offset ((flatten s.expanded tree.items []).length - 1) i
    (by rw [hlenmap]; exact hilt) (by rw [hgetD]; exact hfit)
  rw [hlenmap] at w3
  unfold render_ref
  rw [if_neg hdim]
  simp only [hnil, Bool.false_eq_true, if_false, hpend, hselB, hfind,
    eq_self_iff_true, not_false_iff, true_and, and_true, if_true,
    emitRows_length, List.length_take, List.length_drop]
  exact window_contains_of_bounds _ _ _ _ w1 w2 w3 w4

/-- Evaluation form of render_ref in the non-degenerate case, used to compute
concrete render passes once the flattened list is known. -/
theorem render_ref_eq {α : Type} [DecidableEq α] (tree : Tree α) (area : Rect)
    (s : ExplorerState α) (vis : List (Flattened α))
    (hvis : flatten s.expanded tree.items [] = vis)
    (h1 : ¬(area.width < 1 ∨ area.height < 1))
    (h2 : vis.isEmpty = false) :
    render_ref tree area s =
      (let ensure_index_in_view :=
        if s.ensure_selected_in_view_on_next_render ∧ ¬s.selected.isEmpty then
          vis.findIdx? (fun f => f.identifier = s.selected)
        else none
       let window := computeWindow area.height (vis.map (fun f => f.item.height))
         s.offset (vis.length - 1) ensure_index_in_view
       let shown := (vis.drop window.1).take (window.2 - window.1)
       let rows := emitRows s.selected s.expanded area shown 0
       ({ s with
          last_area := area
          last_biggest_index := vis.length - 1
          offset := window.1
          ensure_selected_in_view_on_next_render := false
          last_rendered_identifiers := rows.map (fun r => (r.y, r.identifier))
          last_identifiers := vis.map (fun f => f.identifier) }, rows)) := by
  unfold render_ref
  rw [if_neg h1]
  simp only [hvis, h2, Bool.false_eq_true, if_false]

/-- Two-leaf forest with unit heights for the scroll-into-view witness. -/
def treeV : Tree Nat := ⟨[⟨1, ⟨1⟩, []⟩, ⟨2, ⟨1⟩, []⟩]⟩

def areaV : Rect := ⟨0, 0, 3, 2⟩

def stateV : ExplorerState Nat :=
  { ExplorerState.default Nat with
    selected := [2]
    ensure_selected_in_view_on_next_render := true }

theorem flatten_treeV_eval :
    flatten stateV.expanded treeV.items [] =
      [⟨[1], ⟨1, ⟨1⟩, []⟩⟩, ⟨[2], ⟨2, ⟨1⟩, []⟩⟩] := by
  simp [flatten, treeV, stateV, ExplorerState.default]

/-- Witness for the amended scroll-into-view claim at a concrete nominal
render: the selected index 1 ends up inside the window. -/
theorem selected_in_window_witness :
    (render_ref treeV areaV stateV).1.offset ≤ 1 ∧
    1 < (render_ref treeV areaV stateV).1.offset +
      (render_ref treeV areaV stateV).2.length :=
  selected_in_window treeV areaV stateV 1 ⟨[2], ⟨2, ⟨1⟩, []⟩⟩
    (by decide) (by decide) rfl (by decide)
    (by rw [flatten_treeV_eval]; rfl)
    (by rw [flatten_treeV_eval]; rfl)
    (by decide)

/-- Forest whose selected entry is two rows tall, for the counterexample. -/
def treeX : Tree Nat := ⟨[⟨1, ⟨1⟩, []⟩, ⟨2, ⟨2⟩, []⟩]⟩

def areaX : Rect := ⟨0, 0, 1, 1⟩

def stateX : ExplorerState Nat :=
  { ExplorerState.default Nat with
    selected := [2]
    ensure_selected_in_view_on_next_render := true }

theorem flatten_treeX_eval :
    flatten stateX.expanded treeX.items [] =
      [⟨[1], ⟨1, ⟨1⟩, []⟩⟩, ⟨[2], ⟨2, ⟨2⟩, []⟩⟩] := by
  simp [flatten, treeX, stateX, ExplorerState.default]

/-- Counterexample to C1 as stated: a 1x1 viewport, pending scroll-into-view,
and a selected entry of rendered height 2 at index 1.  The shrink loop pushes
the window start past the selected index: the pass persists offset 2 and
emits no rows, so the window [2, 2) does not contain index 1. -/
theorem selected_in_window_cex :
    1 ≤ areaX.width ∧ 1 ≤ areaX.height ∧
    stateX.ensure_selected_in_view_on_next_render = true ∧
    stateX.selected ≠ [] ∧
    (flatten stateX.expanded treeX.items []).findIdx?
      (fun g => decide (g.identifier = stateX.selected)) = some 1 ∧
    (render_ref treeX areaX stateX).1.offset = 2 ∧
    (render_ref treeX areaX stateX).2.length = 0 ∧
    ¬((render_ref treeX areaX stateX).1.offset ≤ 1 ∧
      1 < (render_ref treeX areaX stateX).1.offset +
        (render_ref treeX areaX stateX).2.length) := by
  have hr := render_ref_eq treeX areaX stateX _ flatten_treeX_eval
    (by decide) (by decide)
  rw [flatten_treeX_eval, hr]
  decide

/-- Resolve a path in a forest: follow the first sibling carrying each
identifier (unique under the sibling-uniqueness invariant).  This is the
specification-side notion of the node a path denotes. -/
def getAt {α : Type} [DecidableEq α] : List (TreeItem α) → List α → Option (TreeItem α)
  | _, [] => none
  | items, a :: rest =>
    match items.find? (fun t => decide (t.identifier = a)) with
    | none => none
    | some t => if rest.isEmpty then some t else getAt t.children rest

theorem getAt_nil_items {α : Type} [DecidableEq α] (rel : List α) :
    getAt ([] : List (TreeItem α)) rel = none := by
  cases rel with
  | nil => rfl
  | cons a rest => rfl

/-- Sibling-identifier uniqueness at a node and below, as established by the
checked constructors TreeItem::new and Tree::new. -/
inductive WellFormed {α : Type} : TreeItem α → Prop where
  | mk : ∀ {t : TreeItem α}, (t.children.map TreeItem.identifier).Nodup →
      (∀ c ∈ t.children, WellFormed c) → WellFormed t

theorem WellFormed.children_nodup {α : Type} {t : TreeItem α} (h : WellFormed t) :
    (t.children.map TreeItem.identifier).Nodup := by
  cases h with
  | mk h1 h2 => exact h1

theorem WellFormed.children_wf {α : Type} {t : TreeItem α} (h : WellFormed t) :
    ∀ c ∈ t.children, WellFormed c := by
  cases h with
  | mk h1 h2 => exact h2

/-- Sibling-identifier uniqueness at every level of a forest. -/
def ForestWF {α : Type} (items : List (TreeItem α)) : Prop :=
  (items.map TreeItem.identifier).Nodup ∧ ∀ t ∈ items, WellFormed t

/-- Every flattened entry's path extends the current prefix by a sibling
identifier of the forest followed by some tail. -/
theorem flatten_shape {α : Type} [DecidableEq α] (openIds : Finset (List α)) :
    ∀ (items : List (TreeItem α)) (current : List α),
    ∀ f ∈ flatten openIds items current,
    ∃ a rel, a ∈ items.map TreeItem.identifier ∧
      f.identifier = current ++ a :: rel := by
  intro items current
  induction items, current using flatten.induct openIds with
  | case1 cur =>
    intro f hf
    simp [flatten] at hf
  | case2 item rest cur p ih1 ih2 =>
    have hp : p = cur ++ [item.identifier] := rfl
    rw [hp] at ih1
    intro f hf
    rw [flatten] at hf
    rcases List.mem_cons.mp hf with rfl | hf2
    · exact ⟨item.identifier, [], by simp, rfl⟩
    rcases List.mem_append.mp hf2 with hfb | hfc
    · by_cases hopen : cur ++ [item.identifier] ∈ openIds
      · rw [if_pos hopen] at hfb
        obtain ⟨a, rel, _, hid⟩ := ih1 f hfb
        refine ⟨item.identifier, a :: rel, by simp, ?_⟩
        rw [hid, List.append_assoc]
        rfl
      · rw [if_neg hopen] at hfb
        cases hfb
    · obtain ⟨a, rel, ha, hid⟩ := ih2 f hfc
      exact ⟨a, rel, by simp [List.mem_cons]; exact Or.inr (by simpa using ha), hid⟩

/-- Under the sibling-uniqueness invariant, the flattened entries have
pairwise distinct paths. -/
theorem flatten_nodup {α : Type} [DecidableEq α] (openIds : Finset (List α)) :
    ∀ (items : List (TreeItem α)) (current : List α), ForestWF items →
    ((flatten openIds items current).map Flattened.identifier).Nodup := by
  intro items current
  induction items, current using flatten.induct openIds with
  | case1 cur =>
    intro _
    simp [flatten]
  | case2 item rest cur p ih1 ih2 =>
    have hp : p = cur ++ [item.identifier] := rfl
    rw [hp] at ih1
    intro hwf
    obtain ⟨hnd, hall⟩ := hwf
    rw [List.map_cons, List.nodup_cons] at hnd
    obtain ⟨hnd1, hnd2⟩ := hnd
    have hwf_item : WellFormed item := hall item (List.mem_cons_self item rest)
    have hwf_children : ForestWF item.children :=
      ⟨hwf_item.children_nodup, hwf_item.children_wf⟩
    have hwf_rest : ForestWF rest :=
      ⟨hnd2, fun t ht => hall t (List.mem_cons_of_mem item ht)⟩
    rw [flatten, List.map_cons, List.nodup_cons, List.map_append, List.nodup_append]
    have hB : ∀ q ∈ ((if cur ++ [item.identifier] ∈ openIds then
        flatten openIds item.children (cur ++ [item.identifier])
        else []).map Flattened.identifier),
        ∃ a rel, q = cur ++ item.identifier :: a :: rel := by
      intro q hq
      by_cases hopen : cur ++ [item.identifier] ∈ openIds
      · rw [if_pos hopen] at hq
        obtain ⟨f, hf, rfl⟩ := List.mem_map.mp hq
        obtain ⟨a, rel, _, hid⟩ := flatten_shape openIds item.children
          (cur ++ [item.identifier]) f hf
        exact ⟨a, rel, by rw [hid, List.append_assoc]; rfl⟩
      · rw [if_neg hopen] at hq
        cases hq
    have hC : ∀ q ∈ ((flatten openIds rest cur).map Flattened.identifier),
        ∃ a rel, a ∈ rest.map TreeItem.identifier ∧ q = cur ++ a :: rel := by
      intro q hq
      obtain ⟨f, hf, rfl⟩ := List.mem_map.mp hq
      obtain ⟨a, rel, ha, hid⟩ := flatten_shape openIds rest cur f hf
      exact ⟨a, rel, ha, hid⟩
    refine ⟨?_, ?_, ?_, ?_⟩
    · intro hmem
      rcases List.mem_append.mp hmem with hmB | hmC
      · obtain ⟨a, rel, heq⟩ := hB _ hmB
        have := congrArg List.length heq
        simp at this
      · obtain ⟨a, rel, ha, heq⟩ := hC _ hmC
        have h2 : ([item.identifier] : List α) = a :: rel :=
          List.append_cancel_left heq
        have h3 : item.identifier = a := by
          injection h2 with h3 _
        exact hnd1 (h3 ▸ ha)
    · by_cases hopen : cur ++ [item.identifier] ∈ openIds
      · rw [if_pos hopen]
        exact ih1 hwf_children
      · rw [if_neg hopen]
        simp
    · exact ih2 hwf_rest
    · intro q hqB hqC
      obtain ⟨a, rel, heqB⟩ := hB q hqB
      obtain ⟨a2, rel2, ha2, heqC⟩ := hC q hqC
      have h2 : item.identifier :: a :: rel = a2 :: rel2 :=
        List.append_cancel_left (heqB ▸ heqC)
      have h3 : item.identifier = a2 := by
        injection h2 with h3 _
      exact hnd1 (h3 ▸ ha2)

theorem getAt_cons_self {α : Type} [DecidableEq α] (item : TreeItem α)
    (rest : List (TreeItem α)) (rel : List α) :
    getAt (item :: rest) (item.identifier :: rel) =
      if rel.isEmpty then some item else getAt item.children rel := by
  simp [getAt, List.find?_cons]

theorem getAt_cons_ne {α : Type} [DecidableEq α] (item : TreeItem α)
    (rest : List (TreeItem α)) (a : α) (rel : List α) (h : item.identifier ≠ a) :
    getAt (item :: rest) (a :: rel) = getAt rest (a :: rel) := by
  simp [getAt, List.find?_cons, h]

theorem getAt_head_mem {α : Type} [DecidableEq α] (items : List (TreeItem α))
    (a : α) (rel : List α) (it : TreeItem α)
    (h : getAt items (a :: rel) = some it) :
    a ∈ items.map TreeItem.identifier := by
  cases hf : items.find? (fun t => decide (t.identifier = a)) with
  | none => simp [getAt, hf] at h
  | some t =>
    have ht := List.mem_of_find?_eq_some hf
    have hpt := List.find?_some hf
    rw [decide_eq_true_eq] at hpt
    exact List.mem_map.mpr ⟨t, ht, hpt⟩

/-- Membership characterization of flatten: an entry with path current ++ rel
appears exactly when rel resolves to that node and every strictly-between
prefix is in the expansion set. -/
theorem mem_flatten_iff {α : Type} [DecidableEq α] (openIds : Finset (List α)) :
    ∀ (items : List (TreeItem α)) (current : List α), ForestWF items →
    ∀ (p : List α) (it : TreeItem α),
    ((⟨p, it⟩ : Flattened α) ∈ flatten openIds items current ↔
      ∃ rel, p = current ++ rel ∧ getAt items rel = some it ∧
        ∀ n, 0 < n → n < rel.length → current ++ rel.take n ∈ openIds) := by
  intro items current
  induction items, current using flatten.induct openIds with
  | case1 cur =>
    intro _ p it
    simp only [flatten, List.not_mem_nil, false_iff, not_exists]
    rintro rel ⟨_, hget, _⟩
    rw [getAt_nil_items] at hget
    cases hget
  | case2 item rest cur q ih1 ih2 =>
    have hq : q = cur ++ [item.identifier] := rfl
    rw [hq] at ih1
    intro hwf p it
    obtain ⟨hnd, hall⟩ := hwf
    rw [List.map_cons, List.nodup_cons] at hnd
    obtain ⟨hnd1, hnd2⟩ := hnd
    have hwf_item : WellFormed item := hall item (List.mem_cons_self item rest)
    have hwf_children : ForestWF item.children :=
      ⟨hwf_item.children_nodup, hwf_item.children_wf⟩
    have hwf_rest : ForestWF rest :=
      ⟨hnd2, fun t ht => hall t (List.mem_cons_of_mem item ht)⟩
    rw [flatten]
    constructor
    · intro hmem
      rcases List.mem_cons.mp hmem with heq | hmem2
      · have hpeq1 : p = cur ++ [item.identifier] := congrArg Flattened.identifier heq
        have hpeq2 : it = item := congrArg Flattened.item heq
        refine ⟨[item.identifier], hpeq1, ?_, ?_⟩
        · rw [getAt_cons_self, hpeq2]
          rfl
        · intro n h1 h2
          simp only [List.length_cons, List.length_nil] at h2
          omega
      · rcases List.mem_append.mp hmem2 with hmB | hmC
        · by_cases hopen : cur ++ [item.identifier] ∈ openIds
          · rw [if_pos hopen] at hmB
            obtain ⟨rel, hprel, hget, hopen2⟩ := (ih1 hwf_children p it).mp hmB
            have hrelne : rel ≠ [] := by
              intro h0
              rw [h0] at hget
              exact Option.noConfusion hget
            have hreb : rel.isEmpty = false := by
              cases rel with
              | nil => exact absurd rfl hrelne
              | cons x xs => rfl
            refine ⟨item.identifier :: rel, ?_, ?_, ?_⟩
            · rw [hprel, List.append_assoc]
              rfl
            · rw [getAt_cons_self, hreb]
              simp only [Bool.false_eq_true, if_false]
              exact hget
            · intro n h1 h2
              cases n with
              | zero => omega
              | succ m =>
                cases m with
                | zero =>
                  simpa using hopen
                | succ k =>
                  have h3 := hopen2 (k + 1) (by omega)
                    (by simp only [List.length_cons] at h2; omega)
                  rw [List.take_succ_cons, List.append_cons]
                  exact h3
          · rw [if_neg hopen] at hmB
            cases hmB
        · obtain ⟨rel, hprel, hget, hopen2⟩ := (ih2 hwf_rest p it).mp hmC
          have hrelne : rel ≠ [] := by
            intro h0
            rw [h0] at hget
            exact Option.noConfusion hget
          obtain ⟨a, r, rfl⟩ := List.exists_cons_of_ne_nil hrelne
          have hamem : a ∈ rest.map TreeItem.identifier :=
            getAt_head_mem rest a r it hget
          have hia : item.identifier ≠ a := fun he => hnd1 (he ▸ hamem)
          exact ⟨a :: r, hprel, by rw [getAt_cons_ne item rest a r hia]; exact hget,
            hopen2⟩
    · rintro ⟨rel, hprel, hget, hopens⟩
      cases rel with
      | nil => exact Option.noConfusion hget
      | cons a r =>
        by_cases hia : item.identifier = a
        · subst hia
          rw [getAt_cons_self] at hget
          by_cases hre : r.isEmpty
          · rw [if_pos hre] at hget
            have hit : item = it := Option.some.inj hget
            have hrnil : r = [] := List.isEmpty_iff.mp hre
            subst hrnil
            subst hit
            rw [List.mem_cons]
            left
            rw [hprel]
          · rw [if_neg hre] at hget
            have hrne : r ≠ [] := fun h0 => hre (by rw [h0]; rfl)
            have hrlen : 0 < r.length := by
              cases r with
              | nil => exact absurd rfl hrne
              | cons x xs => simp
            have hop1 : cur ++ [item.identifier] ∈ openIds := by
              have h1 := hopens 1 (by omega) (by simp only [List.length_cons]; omega)
              simpa using h1
            rw [List.mem_cons]
            right
            rw [List.mem_append]
            left
            rw [if_pos hop1]
            refine (ih1 hwf_children p it).mpr ⟨r, ?_, hget, ?_⟩
            · rw [hprel, List.append_assoc]
              rfl
            · intro m hm1 hm2
              have h3 := hopens (m + 1) (by omega)
                (by simp only [List.length_cons]; omega)
              rw [List.take_succ_cons, List.append_cons] at h3
              exact h3
        · rw [getAt_cons_ne item rest a r hia] at hget
          rw [List.mem_cons]
          right
          rw [List.mem_append]
          right
          exact (ih2 hwf_rest p it).mpr ⟨a :: r, hprel, hget, hopens⟩

/-- C2: for every duplicate-free forest and every expansion set, flatten
produces exactly one entry per node all of whose proper ancestors' paths are
in the expansion set (top-level nodes always appear, their ancestor condition
being vacuous), in pre-order depth-first order following the sibling order
with each node's visible descendants immediately following it, and each
entry's depth equals its path length minus one.  Flatten is a pure function
of the forest and the expansion set, so neither is mutated. -/
theorem flatten_spec {α : Type} [DecidableEq α] (openIds : Finset (List α))
    (items : List (TreeItem α)) (hwf : ForestWF items) :
    (∀ (p : List α) (it : TreeItem α),
      (⟨p, it⟩ : Flattened α) ∈ flatten openIds items [] ↔
        (getAt items p = some it ∧
          ∀ n, 0 < n → n < p.length → p.take n ∈ openIds)) ∧
    ((flatten openIds items []).map Flattened.identifier).Nodup ∧
    (∀ f ∈ flatten openIds items [], f.depth = f.identifier.length - 1) ∧
    (∀ (item : TreeItem α) (rest : List (TreeItem α)) (current : List α),
      flatten openIds (item :: rest) current =
        ⟨current ++ [item.identifier], item⟩ ::
          ((if current ++ [item.identifier] ∈ openIds then
              flatten openIds item.children (current ++ [item.identifier])
            else []) ++ flatten openIds rest current)) := by
  refine ⟨?_, flatten_nodup openIds items [] hwf, fun f _ => rfl,
    fun item rest current => by rw [flatten]⟩
  intro p it
  rw [mem_flatten_iff openIds items [] hwf p it]
  constructor
  · rintro ⟨rel, hprel, hget, hopens⟩
    rw [List.nil_append] at hprel
    subst hprel
    refine ⟨hget, ?_⟩
    intro n h1 h2
    have h3 := hopens n h1 h2
    rwa [List.nil_append] at h3
  · rintro ⟨hget, hopens⟩
    refine ⟨p, (List.nil_append p).symm, hget, ?_⟩
    intro n h1 h2
    rw [List.nil_append]
    exact hopens n h1 h2

/-- Small concrete forest for the flatten-specification witness: a leaf and a
branch with one child. -/
def itemsW2 : List (TreeItem Nat) := [⟨1, ⟨1⟩, []⟩, ⟨2, ⟨1⟩, [⟨3, ⟨1⟩, []⟩]⟩]

theorem itemsW2_wf : ForestWF itemsW2 := by
  constructor
  · decide
  · intro t ht
    fin_cases ht
    · exact WellFormed.mk (by decide) (fun c hc => absurd hc (List.not_mem_nil c))
    · refine WellFormed.mk (by decide) ?_
      intro c hc
      fin_cases hc
      exact WellFormed.mk (by decide) (fun c2 hc2 => absurd hc2 (List.not_mem_nil c2))

/-- Witness for flatten_spec: with the branch expanded, the child at path
[2, 3] is a flattened entry of the example forest. -/
theorem flatten_spec_witness :
    (⟨[2, 3], ⟨3, ⟨1⟩, []⟩⟩ : Flattened Nat) ∈
      flatten ({[2]} : Finset (List Nat)) itemsW2 [] :=
  ((flatten_spec ({[2]} : Finset (List Nat)) itemsW2 itemsW2_wf).1 [2, 3]
      ⟨3, ⟨1⟩, []⟩).mpr
    ⟨by rfl, by
      intro n h1 h2
      simp only [List.length_cons, List.length_nil] at h2
      have hn : n = 1 := by omega
      subst hn
      decide⟩

instance instTotalChildLeP : IsTotal (TreeItem MPath) childLeP := by
  constructor
  intro a b
  unfold childLeP childLe
  cases ha : a.children.isEmpty <;> cases hb : b.children.isEmpty <;>
    simp only [decide_eq_true_eq]
  · exact le_total a.identifier b.identifier
  · trivial
  · trivial
  · exact le_total a.identifier b.identifier

instance instTransChildLeP : IsTrans (TreeItem MPath) childLeP := by
  constructor
  intro a b c hab hbc
  unfold childLeP childLe at hab hbc ⊢
  cases ha : a.children.isEmpty <;> cases hb : b.children.isEmpty <;>
    cases hc : c.children.isEmpty <;>
    rw [ha, hb] at hab <;> rw [hb, hc] at hbc <;>
    simp only [decide_eq_true_eq] at hab hbc ⊢ <;>
    first
      | exact le_trans hab hbc
      | exact absurd hab (by decide)
      | exact absurd hbc (by decide)
      | trivial

theorem TreeItem.new_ok {α : Type} [DecidableEq α] {identifier : α} {text : MText}
    {children : List (TreeItem α)} {t : TreeItem α}
    (h : TreeItem.new identifier text children = .ok t) :
    t = ⟨identifier, text, children⟩ := by
  unfold TreeItem.new at h
  split at h
  · exact (Except.ok.inj h).symm
  · cases h

/-- A leaf node trivially satisfies the level-sortedness predicate. -/
theorem EverySorted_leaf (q : MPath) (tx : MText) :
    EverySorted (TreeItem.new_leaf q tx) :=
  EverySorted.mk List.sorted_nil (fun c hc => absurd hc (List.not_mem_nil c))

/-- Every child collected by buildChildren is either a recursively built
subtree or a fresh leaf. -/
theorem buildChildren_mem (recur : MPath → Except TreeError (TreeItem MPath))
    (is_dir : MPath → Bool) (current_path : MPath) :
    ∀ (entries : List MPath) (cs : List (TreeItem MPath)),
    buildChildren recur is_dir current_path entries = .ok cs →
    ∀ c ∈ cs, (∃ q, recur q = .ok c) ∨ ∃ q, c = TreeItem.new_leaf q ⟨1⟩ := by
  intro entries
  induction entries with
  | nil =>
    intro cs h c hc
    rw [buildChildren] at h
    cases h
    cases hc
  | cons path rest ih =>
    intro cs h c hc
    rw [buildChildren] at h
    cases hrel : relTo current_path path with
    | none =>
      rw [hrel] at h
      exact ih cs h c hc
    | some compList =>
      rw [hrel] at h
      cases compList with
      | nil => exact ih cs h c hc
      | cons comp compRest =>
        cases compRest with
        | cons x xs => exact ih cs h c hc
        | nil =>
          dsimp only at h
          by_cases hdir : is_dir path = true
          · rw [if_pos hdir] at h
            cases hrec : recur (current_path ++ [comp]) with
            | error e =>
              rw [hrec] at h
              cases h
            | ok child =>
              rw [hrec] at h
              cases htail : buildChildren recur is_dir current_path rest with
              | error e =>
                rw [htail] at h
                cases h
              | ok tail =>
                rw [htail] at h
                cases h
                rcases List.mem_cons.mp hc with rfl | hc2
                · exact Or.inl ⟨current_path ++ [comp], hrec⟩
                · exact ih tail htail c hc2
          · rw [if_neg hdir] at h
            cases htail : buildChildren recur is_dir current_path rest with
            | error e =>
              rw [htail] at h
              cases h
            | ok tail =>
              rw [htail] at h
              cases h
              rcases List.mem_cons.mp hc with rfl | hc2
              · exact Or.inr ⟨current_path ++ [comp], rfl⟩
              · exact ih tail htail c hc2

/-- Every successfully built subtree has all its levels sorted by the
builder's comparator. -/
theorem build_subtree_sorted (is_dir : MPath → Bool) (entries : List MPath) :
    ∀ (fuel : Nat) (current : MPath) (t : TreeItem MPath),
    build_directory_tree is_dir entries fuel current = .ok t → EverySorted t := by
  intro fuel
  induction fuel with
  | zero =>
    intro current t h
    cases h
  | succ n ih =>
    intro current t h
    rw [build_directory_tree] at h
    cases hbc : buildChildren (fun q => build_directory_tree is_dir entries n q)
        is_dir current entries with
    | error e =>
      rw [hbc] at h
      cases h
    | ok children =>
      rw [hbc] at h
      have ht := TreeItem.new_ok h
      subst ht
      refine EverySorted.mk (List.sorted_insertionSort childLeP children) ?_
      intro c hc
      have hc2 : c ∈ children := (List.mem_insertionSort childLeP).mp hc
      rcases buildChildren_mem _ is_dir current entries children hbc c hc2 with
        ⟨q, hq⟩ | ⟨q, hq⟩
      · exact ih q c hq
      · rw [hq]
        exact EverySorted_leaf q ⟨1⟩

/-- Scenario fixtures for the builder claim: root with three files and one
subdirectory holding two files, listed in the entry-set order the program
iterates (directories before files, then ascending full path). -/
def exRoot : MPath := ["root".toList]

def exSub : MPath := ["root".toList, "sub".toList]

def exA : MPath := ["root".toList, "a.txt".toList]

def exB : MPath := ["root".toList, "b.txt".toList]

def exC : MPath := ["root".toList, "c.txt".toList]

def exSubK : MPath := ["root".toList, "sub".toList, "k.txt".toList]

def exSubM : MPath := ["root".toList, "sub".toList, "m.txt".toList]

def exEntries : List MPath := [exSub, exA, exB, exC, exSubK, exSubM]

def exIsDir : MPath → Bool := fun p => p = exSub

/-- C4 (amended): every level of each subtree built for a directory entry is
ordered with branch nodes before leaf nodes and within the same kind
ascending by the node's own identifier; and the concrete scenario of three
files plus one subdirectory with two files yields the subdirectory first,
then the three files alphabetically, with the subdirectory's own children
alphabetical.  The forest's top level itself follows the entry-set order
instead of being sorted by the builder. -/
theorem build_sorted :
    (∀ (is_dir : MPath → Bool) (entries : List MPath) (fuel : Nat)
      (current : MPath) (t : TreeItem MPath),
      build_directory_tree is_dir entries fuel current = .ok t → EverySorted t) ∧
    rebuild_tree exIsDir exRoot exEntries 4 =
      .ok ⟨[⟨exSub, ⟨1⟩, [TreeItem.new_leaf exSubK ⟨1⟩, TreeItem.new_leaf exSubM ⟨1⟩]⟩,
        TreeItem.new_leaf exA ⟨1⟩, TreeItem.new_leaf exB ⟨1⟩,
        TreeItem.new_leaf exC ⟨1⟩]⟩ := by
  refine ⟨fun d e f c t h => build_subtree_sorted d e f c t h, ?_⟩
  rfl

/-- Witness for the builder sortedness at the concrete scenario subtree. -/
theorem build_sorted_witness :
    EverySorted ⟨exSub, ⟨1⟩,
      [TreeItem.new_leaf exSubK ⟨1⟩, TreeItem.new_leaf exSubM ⟨1⟩]⟩ :=
  build_sorted.1 exIsDir exEntries 4 exSub _ rfl

/-- Counterexample fixtures: an empty directory and a file at the top level,
in the entry-set order the program iterates (directories first). -/
def cexRoot : MPath := ["root".toList]

def cexZzz : MPath := ["root".toList, "zzz".toList]

def cexA : MPath := ["root".toList, "a.txt".toList]

def cexEntries : List MPath := [cexZzz, cexA]

def cexIsDir : MPath → Bool := fun p => p = cexZzz

def cexTree : Tree MPath := ⟨[⟨cexZzz, ⟨1⟩, []⟩, TreeItem.new_leaf cexA ⟨1⟩]⟩

/-- Counterexample to C4 as stated: with an empty directory among the
entries, the built forest's top level is not ordered branch-first /
ascending-within-kind: the empty directory builds to a node without children
(leaf kind) yet precedes the alphabetically-smaller file, because the top
level keeps the entry-set order and is never sorted by the builder. -/
theorem build_sorted_cex :
    rebuild_tree cexIsDir cexRoot cexEntries 3 = .ok cexTree ∧
    ¬ ForestEverySorted cexTree := by
  constructor
  · rfl
  · intro h
    have h1 := (List.sorted_cons.mp h.1).1 (TreeItem.new_leaf cexA ⟨1⟩)
      (List.mem_cons_self _ _)
    revert h1
    decide

end Ki
